import Mathlib

set_option linter.unusedVariables false

/-!
Shallow embedding of `mangautils.py` (booklet-imposition utility).

Python semantics used by the source are embedded explicitly:
* extended list slicing `l[start:stop:step]` follows the CPython
  `PySlice_AdjustIndices` algorithm plus the element-gathering loop;
* `enumerate(l, start)` is `pyEnumerate`;
* `[None] * n` for possibly negative `n` is `List.replicate n.toNat none`;
* Python `dict` insertion (`d[k] = v` keeps the position of an existing key,
  appends a fresh one) models the `self.images` registry of `fpdf`;
* float arithmetic in the layout code is modelled over `ℚ`;
* a raised exception is modelled by `Except.error` of a `PyError`.
-/

namespace Mangautils

/-- CPython `PySlice_AdjustIndices` adjustment of the start bound; `none` is an
omitted bound, resolved from the sign of `step`. -/
def pyAdjustStart (length step : Int) : Option Int → Int
  | none => if step < 0 then length - 1 else 0
  | some s =>
    if s < 0 then
      if s + length < 0 then (if step < 0 then -1 else 0) else s + length
    else if s ≥ length then (if step < 0 then length - 1 else length)
    else s

/-- CPython `PySlice_AdjustIndices` adjustment of the stop bound. -/
def pyAdjustStop (length step : Int) : Option Int → Int
  | none => if step < 0 then -1 else length
  | some s =>
    if s < 0 then
      if s + length < 0 then (if step < 0 then -1 else 0) else s + length
    else if s ≥ length then (if step < 0 then length - 1 else length)
    else s

/-- Number of elements selected by an adjusted slice (CPython slice length). -/
def pySliceLength (start stop step : Int) : Nat :=
  if step < 0 then
    if stop < start then ((start - stop - 1) / (-step) + 1).toNat else 0
  else
    if start < stop then ((stop - start - 1) / step + 1).toNat else 0

/-- Python extended slice `l[start?:stop?:step]` for a nonzero step. -/
def pySlice (l : List α) (start? stop? : Option Int) (step : Int) : List α :=
  (List.range (pySliceLength (pyAdjustStart (l.length : Int) step start?)
      (pyAdjustStop (l.length : Int) step stop?) step)).filterMap
    fun (j : ℕ) => l[(pyAdjustStart (l.length : Int) step start? + (j : Int) * step).toNat]?

/-- Python `enumerate(l, start)`. -/
def pyEnumerate : List α → Int → List (Int × α)
  | [], _ => []
  | a :: l, s => (s, a) :: pyEnumerate l (s + 1)

/-- `blanks = [None] * num_blanks` (line 81); an empty list for negative counts,
as in Python. -/
def blanksOf (numBlanks : Int) : List (Option α) :=
  List.replicate numBlanks.toNat none

/-- `img_paths = blanks + natsorted(iter_img_paths(imgs_path))` (line 82); the
directory scan and natural sort are external, so the sorted path list is a
parameter. -/
def imgSlots (sortedPaths : List α) (numBlanks : Int) : List (Option α) :=
  blanksOf numBlanks ++ sortedPaths.map some

/-- `padded_img_paths = img_paths + [None] * ((4 - (len(img_paths) % 4)) % 4)`
(lines 83-84). -/
def paddedImgPaths (sortedPaths : List α) (numBlanks : Int) : List (Option α) :=
  imgSlots sortedPaths numBlanks ++
    List.replicate ((4 - (imgSlots sortedPaths numBlanks).length % 4) % 4) none

/-- `page_info = list(enumerate(padded_img_paths, 1 - num_blanks))` (line 87). -/
def pageInfo (sortedPaths : List α) (numBlanks : Int) : List (Int × Option α) :=
  pyEnumerate (paddedImgPaths sortedPaths numBlanks) (1 - numBlanks)

/-- `back_right_pages = page_info[:middle_index:-2]` (line 88), with
`middle_index = num_pages // 2`. -/
def backRightPages (l : List α) : List α :=
  pySlice l none (some ((l.length : Int) / 2)) (-2)

/-- `back_left_pages = page_info[:middle_index:2]` (line 89). -/
def backLeftPages (l : List α) : List α :=
  pySlice l none (some ((l.length : Int) / 2)) 2

/-- `front_right_pages = page_info[1:middle_index:2]` (line 90). -/
def frontRightPages (l : List α) : List α :=
  pySlice l (some 1) (some ((l.length : Int) / 2)) 2

/-- `front_left_pages = page_info[num_pages-2:middle_index-1:-2]` (line 91). -/
def frontLeftPages (l : List α) : List α :=
  pySlice l (some ((l.length : Int) - 2)) (some ((l.length : Int) / 2 - 1)) (-2)

/-- The page number written for one slot of a sheet half: `write_page_num` is
called iff the image path of the slot is not `None` (lines 61-66). -/
def numsOf (p : Int × Option α) : List Int :=
  if p.2.isSome then [p.1] else []

/-- `zip(left_pages, right_pages)` in `MangaPDF.__init__` (line 59): one output
page per zipped pair. -/
def sheetsOf (left right : List (Int × Option α)) :
    List ((Int × Option α) × (Int × Option α)) :=
  left.zip right

/-- The sheets of the back document: `MangaPDF(back_left_pages, back_right_pages)`. -/
def backSheets (l : List (Int × Option α)) :
    List ((Int × Option α) × (Int × Option α)) :=
  sheetsOf (backLeftPages l) (backRightPages l)

/-- The sheets of the front document: `MangaPDF(front_left_pages, front_right_pages)`. -/
def frontSheets (l : List (Int × Option α)) :
    List ((Int × Option α) × (Int × Option α)) :=
  sheetsOf (frontLeftPages l) (frontRightPages l)

/-- All page numbers written across a document, in emission order (left slot
then right slot of each sheet, lines 60-66). -/
def placedNums : List ((Int × Option α) × (Int × Option α)) → List Int
  | [] => []
  | (a, b) :: rest => numsOf a ++ numsOf b ++ placedNums rest

/-- The logical numbers of the non-blank slots of a slot list, in order. -/
def nonBlankNums (l : List (Int × Option α)) : List Int :=
  l.filterMap fun p => if p.2.isSome then some p.1 else none

/-- A sample padded slot list (8 slots, three of them blank). -/
def sampleSlots : List (Int × Option ℕ) :=
  [(1, some 10), (2, some 20), (3, none), (4, some 40),
    (5, some 50), (6, none), (7, some 70), (8, none)]

/-! ### Layout geometry (`MangaPDF.write_image`, lines 27-45) -/

/-- `page_height = 210` (line 11). -/
def pageHeight : ℚ := 210

/-- `page_width = 297` (line 12). -/
def pageWidth : ℚ := 297

/-- `image_margin = 4.2` (line 13). -/
def imageMargin : ℚ := 21 / 5

/-- A computed image placement rectangle (x, y, w, h), page-space units. -/
structure Placement where
  x : ℚ
  y : ℚ
  w : ℚ
  h : ℚ
deriving DecidableEq

/-- The placement arithmetic of `write_image` (lines 27-44), float arithmetic
modelled over `ℚ`. -/
def placement (iw ih : ℚ) (rightSide : Bool) : Placement :=
  let imageRatio := iw / ih
  let pw := pageWidth / 2 - imageMargin - imageMargin
  let ph := pageHeight - imageMargin - imageMargin
  let pageRatio := pw / ph
  let px := (if rightSide then pageWidth / 2 else 0) + imageMargin
  let py := imageMargin
  if imageRatio > pageRatio then
    { x := px, y := py + (ph - ph * (pageRatio / imageRatio)) / 2,
      w := pw, h := ph * (pageRatio / imageRatio) }
  else
    { x := px + (pw - pw * (imageRatio / pageRatio)) / 2, y := py,
      w := pw * (imageRatio / pageRatio), h := ph }

/-- Exceptions the modelled code can raise. -/
inductive PyError
  | zeroDivisionError
  | valueError (msg : String)
deriving DecidableEq

/-- The placement path of `write_image` including its failure behaviour: Python
raises `ZeroDivisionError` at `image_ratio = iw / ih` (line 29) when `ih = 0`;
otherwise the computation is total. -/
def placeChecked (iw ih : ℚ) (rightSide : Bool) : Except PyError Placement :=
  if ih = 0 then .error .zeroDivisionError else .ok (placement iw ih rightSide)

/-- Which header parser an image path is routed to. -/
inductive ImgKind
  | jpeg
  | png
deriving DecidableEq

/-- The extension dispatch of `write_image` (lines 18-23): `.jpg`/`.jpeg` go to
`_parsejpg`, `.png` to `_parsepng`, anything else raises
`ValueError("invalid image extension")`. -/
def parseImageInfo (suffix : String) : Except PyError ImgKind :=
  if suffix = ".jpg" ∨ suffix = ".jpeg" then .ok .jpeg
  else if suffix = ".png" then .ok .png
  else .error (.valueError "invalid image extension")

/-! ### Image registry (`write_image`, lines 24-26) -/

/-- Python `d[k] = v`: overwrite in place when the key exists, append otherwise. -/
def dictSet (d : List (String × Nat)) (k : String) (v : Nat) : List (String × Nat) :=
  if d.any (fun p => p.1 == k) then d.map (fun p => if p.1 == k then (k, v) else p)
  else d ++ [(k, v)]

/-- Python `d[k]` lookup (as an option). -/
def dictGet? (d : List (String × Nat)) (k : String) : Option Nat :=
  (d.find? (fun p => p.1 == k)).map Prod.snd

/-- Lines 24-26 and the `/I{i} Do` reference of line 45, iterated over a list
of image names: `i = len(self.images) + 1; info["i"] = i; self.images[name] = info`,
then a content-stream reference `(name, i)` is emitted.  Returns the final
registry and the emitted references in order. -/
def writeImages : List String → List (String × Nat) → List (String × Nat) × List (String × Nat)
  | [], d => (d, [])
  | n :: rest, d =>
    let i := d.length + 1
    let res := writeImages rest (dictSet d n i)
    (res.1, (n, i) :: res.2)

/-! ### Characterization of the four planner slices -/

lemma filterMap_range_congr (f g : ℕ → Option α) (k : ℕ)
    (h : ∀ j < k, f j = g j) :
    (List.range k).filterMap f = (List.range k).filterMap g := by
  induction k with
  | zero => rfl
  | succ k ih =>
    rw [List.range_succ, List.filterMap_append, List.filterMap_append,
      ih fun j hj => h j (by omega)]
    simp [List.filterMap_cons, h k (by omega)]

lemma backLeftPages_eq (l : List α) (k : ℕ) (hl : l.length = 4 * k) :
    backLeftPages l = ((List.range k).map (fun j => 2 * j)).filterMap
      fun i => l[i]? := by
  have hlen : (l.length : Int) = 4 * (k : Int) := by rw [hl]; push_cast; ring
  rw [backLeftPages, pySlice]
  have hstart : pyAdjustStart (l.length : Int) 2 none = 0 := by
    simp [pyAdjustStart]
  have hstop : pyAdjustStop (l.length : Int) 2 (some ((l.length : Int) / 2)) =
      2 * (k : Int) := by
    simp only [pyAdjustStop, hlen]
    split_ifs <;> omega
  rw [hstart, hstop]
  have hcount : pySliceLength 0 (2 * (k : Int)) 2 = k := by
    simp only [pySliceLength, neg_neg]
    split_ifs <;> omega
  rw [hcount, List.filterMap_map]
  apply filterMap_range_congr
  intro j hj
  simp only [Function.comp_apply]
  congr 1
  omega

lemma backRightPages_eq (l : List α) (k : ℕ) (hl : l.length = 4 * k) :
    backRightPages l = ((List.range k).map (fun j => 4 * k - 1 - 2 * j)).filterMap
      fun i => l[i]? := by
  rcases Nat.eq_zero_or_pos k with hk | hk
  · subst hk
    have : l = [] := List.eq_nil_of_length_eq_zero (by omega)
    subst this
    norm_num [backRightPages, frontLeftPages, frontRightPages, pySlice,
      pyAdjustStart, pyAdjustStop, pySliceLength]
  have hlen : (l.length : Int) = 4 * (k : Int) := by rw [hl]; push_cast; ring
  rw [backRightPages, pySlice]
  have hstart : pyAdjustStart (l.length : Int) (-2) none = 4 * (k : Int) - 1 := by
    simp only [pyAdjustStart, hlen]
    split_ifs <;> omega
  have hstop : pyAdjustStop (l.length : Int) (-2) (some ((l.length : Int) / 2)) =
      2 * (k : Int) := by
    simp only [pyAdjustStop, hlen]
    split_ifs <;> omega
  rw [hstart, hstop]
  have hcount : pySliceLength (4 * (k : Int) - 1) (2 * (k : Int)) (-2) = k := by
    simp only [pySliceLength, neg_neg]
    split_ifs <;> omega
  rw [hcount, List.filterMap_map]
  apply filterMap_range_congr
  intro j hj
  simp only [Function.comp_apply]
  congr 1
  omega

lemma frontLeftPages_eq (l : List α) (k : ℕ) (hl : l.length = 4 * k) :
    frontLeftPages l = ((List.range k).map (fun j => 4 * k - 2 - 2 * j)).filterMap
      fun i => l[i]? := by
  rcases Nat.eq_zero_or_pos k with hk | hk
  · subst hk
    have : l = [] := List.eq_nil_of_length_eq_zero (by omega)
    subst this
    norm_num [backRightPages, frontLeftPages, frontRightPages, pySlice,
      pyAdjustStart, pyAdjustStop, pySliceLength]
  have hlen : (l.length : Int) = 4 * (k : Int) := by rw [hl]; push_cast; ring
  rw [frontLeftPages, pySlice]
  have hstart : pyAdjustStart (l.length : Int) (-2) (some ((l.length : Int) - 2)) =
      4 * (k : Int) - 2 := by
    simp only [pyAdjustStart, hlen]
    split_ifs <;> omega
  have hstop : pyAdjustStop (l.length : Int) (-2) (some ((l.length : Int) / 2 - 1)) =
      2 * (k : Int) - 1 := by
    simp only [pyAdjustStop, hlen]
    split_ifs <;> omega
  rw [hstart, hstop]
  have hcount : pySliceLength (4 * (k : Int) - 2) (2 * (k : Int) - 1) (-2) = k := by
    simp only [pySliceLength, neg_neg]
    split_ifs <;> omega
  rw [hcount, List.filterMap_map]
  apply filterMap_range_congr
  intro j hj
  simp only [Function.comp_apply]
  congr 1
  omega

lemma frontRightPages_eq (l : List α) (k : ℕ) (hl : l.length = 4 * k) :
    frontRightPages l = ((List.range k).map (fun j => 2 * j + 1)).filterMap
      fun i => l[i]? := by
  rcases Nat.eq_zero_or_pos k with hk | hk
  · subst hk
    have : l = [] := List.eq_nil_of_length_eq_zero (by omega)
    subst this
    norm_num [backRightPages, frontLeftPages, frontRightPages, pySlice,
      pyAdjustStart, pyAdjustStop, pySliceLength]
  have hlen : (l.length : Int) = 4 * (k : Int) := by rw [hl]; push_cast; ring
  rw [frontRightPages, pySlice]
  have hstart : pyAdjustStart (l.length : Int) 2 (some 1) = 1 := by
    simp only [pyAdjustStart]
    split_ifs <;> omega
  have hstop : pyAdjustStop (l.length : Int) 2 (some ((l.length : Int) / 2)) =
      2 * (k : Int) := by
    simp only [pyAdjustStop, hlen]
    split_ifs <;> omega
  rw [hstart, hstop]
  have hcount : pySliceLength 1 (2 * (k : Int)) 2 = k := by
    simp only [pySliceLength, neg_neg]
    split_ifs <;> omega
  rw [hcount, List.filterMap_map]
  apply filterMap_range_congr
  intro j hj
  simp only [Function.comp_apply]
  congr 1
  omega

/-! ### List and multiset utilities -/

lemma filterMap_getElem_length (l : List α) (idx : List ℕ)
    (h : ∀ i ∈ idx, i < l.length) :
    (idx.filterMap fun i => l[i]?).length = idx.length := by
  induction idx with
  | nil => rfl
  | cons i t ih =>
    have hi : i < l.length := h i (by simp)
    have : l[i]? = some (l.get ⟨i, hi⟩) := by
      rw [List.getElem?_eq_getElem hi]
      simp
    rw [List.filterMap_cons, this]
    simp [ih fun j hj => h j (by simp [hj])]

lemma range_filterMap_getElem (l : List α) :
    ((List.range l.length).filterMap fun i => l[i]?) = l := by
  induction l with
  | nil => rfl
  | cons a t ih =>
    rw [List.length_cons, List.range_succ_eq_map, List.filterMap_cons,
      List.filterMap_map]
    have h1 : (a :: t)[0]? = some a := by simp
    have h2 : ((fun i => (a :: t)[i]?) ∘ Nat.succ) = fun i => t[i]? := by
      funext i
      simp
    rw [h1, h2, ih]

lemma coe_append (s t : List α) : (↑(s ++ t) : Multiset α) = ↑s + ↑t :=
  (Multiset.coe_add s t).symm

lemma map_range_reverse (f : ℕ → α) (k : ℕ) :
    ((List.range k).map f).reverse = (List.range k).map fun j => f (k - 1 - j) := by
  apply List.ext_getElem
  · simp
  intro i h1 h2
  rw [List.getElem_reverse]
  simp

lemma range_two_mul_split (k : ℕ) :
    (↑(List.range (2 * k)) : Multiset ℕ) =
      ↑((List.range k).map fun j => 2 * j) +
        ↑((List.range k).map fun j => 2 * j + 1) := by
  induction k with
  | zero => rfl
  | succ k ih =>
    have h2 : 2 * (k + 1) = 2 * k + 1 + 1 := by ring
    rw [h2, List.range_succ, List.range_succ, List.range_succ, List.map_append,
      List.map_append]
    simp only [List.map_cons, List.map_nil, List.append_assoc, coe_append]
    rw [ih]
    abel

lemma index_partition (k : ℕ) :
    Multiset.ofList ((List.range k).map (fun j => 2 * j) ++
        (List.range k).map (fun j => 4 * k - 1 - 2 * j) ++
        (List.range k).map (fun j => 4 * k - 2 - 2 * j) ++
        (List.range k).map (fun j => 2 * j + 1)) =
      Multiset.ofList (List.range (4 * k)) := by
  have h4 : 4 * k = 2 * k + 2 * k := by ring
  have hBR : (List.range k).map (fun j => 4 * k - 1 - 2 * j) =
      ((List.range k).map fun j => 2 * k + (2 * j + 1)).reverse := by
    rw [map_range_reverse]
    apply List.map_congr_left
    intro j hj
    have := List.mem_range.mp hj
    omega
  have hFL : (List.range k).map (fun j => 4 * k - 2 - 2 * j) =
      ((List.range k).map fun j => 2 * k + 2 * j).reverse := by
    rw [map_range_reverse]
    apply List.map_congr_left
    intro j hj
    have := List.mem_range.mp hj
    omega
  have hAdd : (↑(List.range (4 * k)) : Multiset ℕ) =
      ↑(List.range (2 * k)) + ↑((List.range (2 * k)).map fun i => 2 * k + i) := by
    rw [h4, List.range_add, Multiset.coe_add]
  have hMapped : (↑((List.range (2 * k)).map fun i => 2 * k + i) : Multiset ℕ) =
      ↑((List.range k).map fun j => 2 * k + 2 * j) +
        ↑((List.range k).map fun j => 2 * k + (2 * j + 1)) := by
    have := congrArg (Multiset.map fun i => 2 * k + i) (range_two_mul_split k)
    simp only [Multiset.map_coe, Multiset.map_add] at this
    rw [this, List.map_map, List.map_map]
    rfl
  rw [hBR, hFL]
  simp only [coe_append, Multiset.coe_reverse]
  rw [hAdd, hMapped, range_two_mul_split k]
  abel

lemma pyEnumerate_length (l : List α) (s : Int) :
    (pyEnumerate l s).length = l.length := by
  induction l generalizing s with
  | nil => rfl
  | cons a t ih => simp [pyEnumerate, ih]

lemma pyEnumerate_getElem? (l : List α) (s : Int) (i : ℕ) :
    (pyEnumerate l s)[i]? = l[i]?.map fun a => (s + i, a) := by
  induction l generalizing s i with
  | nil => simp [pyEnumerate]
  | cons a t ih =>
    cases i with
    | zero => simp [pyEnumerate]
    | succ i =>
      simp only [pyEnumerate, List.getElem?_cons_succ, ih]
      cases t[i]? <;> simp
      · ring

lemma nonBlankNums_cons (a : Int × Option α) (l : List (Int × Option α)) :
    nonBlankNums (a :: l) = numsOf a ++ nonBlankNums l := by
  by_cases h : a.2.isSome <;> simp [nonBlankNums, numsOf, List.filterMap_cons, h]

lemma nonBlankNums_append (l₁ l₂ : List (Int × Option α)) :
    nonBlankNums (l₁ ++ l₂) = nonBlankNums l₁ ++ nonBlankNums l₂ := by
  simp [nonBlankNums, List.filterMap_append]

lemma placedNums_zip (L R : List (Int × Option α)) (h : L.length = R.length) :
    Multiset.ofList (placedNums (L.zip R)) =
      Multiset.ofList (nonBlankNums L) + Multiset.ofList (nonBlankNums R) := by
  induction L generalizing R with
  | nil =>
    cases R with
    | nil => rfl
    | cons b R => simp at h
  | cons a L ih =>
    cases R with
    | nil => simp at h
    | cons b R =>
      have h' : L.length = R.length := by simpa using h
      rw [List.zip_cons_cons]
      show Multiset.ofList (numsOf a ++ numsOf b ++ placedNums (L.zip R)) = _
      rw [nonBlankNums_cons, nonBlankNums_cons]
      simp only [coe_append, ih R h']
      abel

/-! ### C1: the four index sequences of the planner -/

/-- C1: for every slot list of length `N` divisible by 4 (`mid = N/2`), the four
planner slices select exactly the index sequences of the spec: back-left
`0, 2, …` below `mid` increasing; back-right `N-1, N-3, …` strictly above `mid`
decreasing; front-left `N-2, N-4, …` down to and including `mid` decreasing;
front-right `1, 3, …` below `mid` increasing. -/
theorem claim_C1_planner_index_sequences (N : ℕ) (h : 4 ∣ N) :
    backLeftPages (List.range N) = (List.range (N / 4)).map (fun j => 2 * j) ∧
    backRightPages (List.range N) = (List.range (N / 4)).map (fun j => N - 1 - 2 * j) ∧
    frontLeftPages (List.range N) = (List.range (N / 4)).map (fun j => N - 2 - 2 * j) ∧
    frontRightPages (List.range N) = (List.range (N / 4)).map (fun j => 2 * j + 1) := by
  obtain ⟨k, rfl⟩ := h
  have hl : (List.range (4 * k)).length = 4 * k := List.length_range _
  have hq : 4 * k / 4 = k := by omega
  have hmap : ∀ (idx : List ℕ), (∀ i ∈ idx, i < 4 * k) →
      (idx.filterMap fun i => (List.range (4 * k))[i]?) = idx := by
    intro idx hidx
    induction idx with
    | nil => rfl
    | cons i t iht =>
      rw [List.filterMap_cons]
      have : (List.range (4 * k))[i]? = some i := by
        rw [List.getElem?_eq_getElem (by simpa using hidx i (by simp))]
        simp
      rw [this, iht fun j hj => hidx j (by simp [hj])]
  refine ⟨?_, ?_, ?_, ?_⟩
  · rw [backLeftPages_eq _ k hl, hq]
    apply hmap
    intro i hi
    simp only [List.mem_map, List.mem_range] at hi
    omega
  · rw [backRightPages_eq _ k hl, hq]
    apply hmap
    intro i hi
    simp only [List.mem_map, List.mem_range] at hi
    omega
  · rw [frontLeftPages_eq _ k hl, hq]
    apply hmap
    intro i hi
    simp only [List.mem_map, List.mem_range] at hi
    omega
  · rw [frontRightPages_eq _ k hl, hq]
    apply hmap
    intro i hi
    simp only [List.mem_map, List.mem_range] at hi
    omega

/-- C1 witness: the theorem applied at the concrete length `N = 8`. -/
theorem claim_C1_witness :
    4 ∣ 8 ∧
    (backLeftPages (List.range 8) = (List.range (8 / 4)).map (fun j => 2 * j) ∧
      backRightPages (List.range 8) = (List.range (8 / 4)).map (fun j => 8 - 1 - 2 * j) ∧
      frontLeftPages (List.range 8) = (List.range (8 / 4)).map (fun j => 8 - 2 - 2 * j) ∧
      frontRightPages (List.range 8) = (List.range (8 / 4)).map (fun j => 2 * j + 1)) :=
  ⟨by decide, claim_C1_planner_index_sequences 8 (by decide)⟩

/-! ### C3: the worked example (6 real pages, 0 leading blanks) -/

/-- C3 counterexample: on the 8-slot example the front-left slice is the index
sequence `[6, 4]`, not `[6]` as the claim states. -/
theorem claim_C3_counterexample : frontLeftPages (List.range 8) ≠ [6] := by
  decide

/-- C3 amended: 6 real pages with 0 leading blanks are padded to 8 slots (two
trailing blanks), `mid = 4`, back-left picks indices `[0, 2]`, back-right
`[7, 5]`, front-left `[6, 4]` (not `[6]`), front-right `[1, 3]`, and the first
back sheet pairs page 1 on the left with blank page 8 on the right. -/
theorem claim_C3_worked_example :
    paddedImgPaths [10, 20, 30, 40, 50, 60] 0 =
      [some 10, some 20, some 30, some 40, some 50, some 60, none, none] ∧
    (paddedImgPaths [10, 20, 30, 40, 50, 60] 0).length = 8 ∧
    (paddedImgPaths [10, 20, 30, 40, 50, 60] 0).length / 2 = 4 ∧
    backLeftPages (List.range 8) = [0, 2] ∧
    backRightPages (List.range 8) = [7, 5] ∧
    frontLeftPages (List.range 8) = [6, 4] ∧
    frontRightPages (List.range 8) = [1, 3] ∧
    backSheets (pageInfo [10, 20, 30, 40, 50, 60] 0) =
      [((1, some 10), (8, none)), ((3, some 30), (6, some 60))] := by
  decide

/-! ### C2: sheet counts, slot coverage and page-number conservation -/

/-- C2: for every slot list of length divisible by 4, the back and front
documents have `N/4` sheets each, the four planner slices together use every
slot exactly once, and the multiset of page numbers written across both
documents equals the multiset of numbers of the non-blank slots. -/
theorem claim_C2_sheet_counts_and_coverage {α : Type} (l : List (Int × Option α))
    (h : 4 ∣ l.length) :
    (backSheets l).length = l.length / 4 ∧
    (frontSheets l).length = l.length / 4 ∧
    Multiset.ofList (backLeftPages l ++ backRightPages l ++ frontLeftPages l ++
        frontRightPages l) = Multiset.ofList l ∧
    Multiset.ofList (placedNums (backSheets l) ++ placedNums (frontSheets l)) =
      Multiset.ofList (nonBlankNums l) := by
  obtain ⟨k, hk⟩ := h
  have hbl := backLeftPages_eq l k hk
  have hbr := backRightPages_eq l k hk
  have hfl := frontLeftPages_eq l k hk
  have hfr := frontRightPages_eq l k hk
  have memb : ∀ f : ℕ → ℕ, (∀ j < k, f j < 4 * k) →
      ∀ i ∈ (List.range k).map f, i < l.length := by
    intro f hf i hi
    rw [hk]
    simp only [List.mem_map, List.mem_range] at hi
    obtain ⟨j, hj, rfl⟩ := hi
    exact hf j hj
  have lbl : (backLeftPages l).length = k := by
    rw [hbl, filterMap_getElem_length _ _ (memb _ fun j hj => by omega)]
    simp
  have lbr : (backRightPages l).length = k := by
    rw [hbr, filterMap_getElem_length _ _ (memb _ fun j hj => by omega)]
    simp
  have lfl : (frontLeftPages l).length = k := by
    rw [hfl, filterMap_getElem_length _ _ (memb _ fun j hj => by omega)]
    simp
  have lfr : (frontRightPages l).length = k := by
    rw [hfr, filterMap_getElem_length _ _ (memb _ fun j hj => by omega)]
    simp
  have key : Multiset.ofList (backLeftPages l ++ backRightPages l ++
      frontLeftPages l ++ frontRightPages l) = Multiset.ofList l := by
    rw [hbl, hbr, hfl, hfr, ← List.filterMap_append, ← List.filterMap_append,
      ← List.filterMap_append, ← Multiset.filterMap_coe, index_partition k,
      Multiset.filterMap_coe, ← hk]
    exact congrArg Multiset.ofList (range_filterMap_getElem l)
  refine ⟨?_, ?_, key, ?_⟩
  · rw [backSheets, sheetsOf, List.length_zip, lbl, lbr]
    omega
  · rw [frontSheets, sheetsOf, List.length_zip, lfl, lfr]
    omega
  · have hpb := placedNums_zip (backLeftPages l) (backRightPages l)
      (by rw [lbl, lbr])
    have hpf := placedNums_zip (frontLeftPages l) (frontRightPages l)
      (by rw [lfl, lfr])
    have hnb : Multiset.ofList (nonBlankNums (backLeftPages l ++ backRightPages l ++
        frontLeftPages l ++ frontRightPages l)) = Multiset.ofList (nonBlankNums l) := by
      simp only [nonBlankNums]
      rw [← Multiset.filterMap_coe, ← Multiset.filterMap_coe, key]
    rw [backSheets, frontSheets, sheetsOf, sheetsOf, coe_append, hpb, hpf, ← hnb,
      nonBlankNums_append, nonBlankNums_append, nonBlankNums_append, coe_append,
      coe_append, coe_append]
    abel

/-- C2 witness: the theorem applied to a concrete 8-slot list. -/
theorem claim_C2_witness :
    4 ∣ sampleSlots.length ∧
    ((backSheets sampleSlots).length = sampleSlots.length / 4 ∧
      (frontSheets sampleSlots).length = sampleSlots.length / 4 ∧
      Multiset.ofList (backLeftPages sampleSlots ++ backRightPages sampleSlots ++
          frontLeftPages sampleSlots ++ frontRightPages sampleSlots) =
        Multiset.ofList sampleSlots ∧
      Multiset.ofList (placedNums (backSheets sampleSlots) ++
          placedNums (frontSheets sampleSlots)) =
        Multiset.ofList (nonBlankNums sampleSlots)) :=
  ⟨by decide, claim_C2_sheet_counts_and_coverage sampleSlots (by decide)⟩

/-! ### C4, C10: logical page numbering -/

lemma blanksOf_length (b : Int) :
    (blanksOf b : List (Option α)).length = b.toNat := by
  simp [blanksOf]

lemma padded_getElem?_blank {α : Type} (sortedPaths : List α) (b : Int) (i : ℕ)
    (hi : i < b.toNat) :
    (paddedImgPaths sortedPaths b)[i]? = some none := by
  rw [paddedImgPaths, List.getElem?_append]
  have h1 : i < (imgSlots sortedPaths b).length := by
    simp [imgSlots, blanksOf]
    omega
  rw [if_pos h1, imgSlots, List.getElem?_append]
  rw [if_pos (by simpa [blanksOf_length] using hi)]
  rw [blanksOf, List.getElem?_replicate, if_pos hi]

lemma padded_getElem?_first {α : Type} (a : α) (t : List α) (b : Int) :
    (paddedImgPaths (a :: t) b)[b.toNat]? = some (some a) := by
  rw [paddedImgPaths, List.getElem?_append]
  have h1 : b.toNat < (imgSlots (a :: t) b).length := by
    simp [imgSlots, blanksOf]
  rw [if_pos h1, imgSlots, List.getElem?_append]
  rw [if_neg (by simp [blanksOf_length])]
  simp [blanksOf_length]

lemma pageInfo_num {α : Type} (sortedPaths : List α) (b : Int) (i : ℕ)
    (p : Int × Option α) (hp : (pageInfo sortedPaths b)[i]? = some p) :
    p.1 = (i : Int) + 1 - b := by
  rw [pageInfo, pyEnumerate_getElem?] at hp
  cases hpad : (paddedImgPaths sortedPaths b)[i]? with
  | none => rw [hpad] at hp; simp at hp
  | some a =>
    rw [hpad] at hp
    have h2 : ((1 : Int) - b + (i : Int), a) = p := Option.some.inj hp
    have h3 := congrArg Prod.fst h2
    simp only [] at h3
    omega

/-- C4: for every input list and every leading-blank count `b ≥ 0`, the slot at
0-based position `i` carries logical number `i + 1 - b`; the first real page
(position `b`) is numbered 1 regardless of `b`, and the leading blanks carry
numbers `≤ 0`. -/
theorem claim_C4_logical_numbering {α : Type} (sortedPaths : List α) (b : Int)
    (hb : 0 ≤ b) :
    (∀ (i : ℕ) (p : Int × Option α),
      (pageInfo sortedPaths b)[i]? = some p → p.1 = (i : Int) + 1 - b) ∧
    (∀ a, sortedPaths.head? = some a →
      (pageInfo sortedPaths b)[b.toNat]? = some (1, some a)) ∧
    (∀ i : ℕ, i < b.toNat →
      (pageInfo sortedPaths b)[i]? = some ((i : Int) + 1 - b, none) ∧
        (i : Int) + 1 - b ≤ 0) := by
  refine ⟨fun i p hp => pageInfo_num sortedPaths b i p hp, ?_, ?_⟩
  · intro a ha
    cases sortedPaths with
    | nil => simp at ha
    | cons a0 t =>
      have ha0 : a0 = a := by simpa using ha
      subst ha0
      rw [pageInfo, pyEnumerate_getElem?, padded_getElem?_first a0 t b]
      have h1 : (1 : Int) - b + (b.toNat : Int) = 1 := by omega
      show some ((1 : Int) - b + (b.toNat : Int), (some a0 : Option α)) =
        some (1, some a0)
      rw [h1]
  · intro i hi
    constructor
    · rw [pageInfo, pyEnumerate_getElem?, padded_getElem?_blank sortedPaths b i hi]
      have h2 : (1 : Int) - b + (i : Int) = (i : Int) + 1 - b := by ring
      show some ((1 : Int) - b + (i : Int), (none : Option α)) =
        some ((i : Int) + 1 - b, none)
      rw [h2]
    · omega

/-- C4 witness: one real page behind two leading blanks; the theorem applied at
`b = 2`. -/
theorem claim_C4_witness :
    (0 : Int) ≤ 2 ∧
    ((∀ (i : ℕ) (p : Int × Option ℕ),
        (pageInfo [5] 2)[i]? = some p → p.1 = (i : Int) + 1 - 2) ∧
      (∀ a, ([5] : List ℕ).head? = some a →
        (pageInfo [5] 2)[(2 : Int).toNat]? = some (1, some a)) ∧
      (∀ i : ℕ, i < (2 : Int).toNat →
        (pageInfo [5] 2)[i]? = some ((i : Int) + 1 - 2, none) ∧
          (i : Int) + 1 - 2 ≤ 0)) :=
  ⟨by decide, claim_C4_logical_numbering [5] 2 (by decide)⟩

/-- C10: for every negative blank count `b < 0`, no blank slots are prepended
at all, yet numbering starts at `1 - b`, so the first real page is numbered
`1 - b > 1` rather than 1. -/
theorem claim_C10_negative_blanks {α : Type} (sortedPaths : List α) (b : Int)
    (hb : b < 0) :
    (blanksOf b : List (Option α)) = [] ∧
    (∀ (i : ℕ) (p : Int × Option α),
      (pageInfo sortedPaths b)[i]? = some p → p.1 = (i : Int) + 1 - b) ∧
    (∀ a, sortedPaths.head? = some a →
      (pageInfo sortedPaths b)[0]? = some (1 - b, some a) ∧ 1 < 1 - b) := by
  have hto : b.toNat = 0 := by omega
  refine ⟨?_, fun i p hp => pageInfo_num sortedPaths b i p hp, ?_⟩
  · simp [blanksOf, hto]
  · intro a ha
    cases sortedPaths with
    | nil => simp at ha
    | cons a0 t =>
      have ha0 : a0 = a := by simpa using ha
      subst ha0
      constructor
      · have h0 := padded_getElem?_first a0 t b
        rw [hto] at h0
        rw [pageInfo, pyEnumerate_getElem?, h0]
        simp
      · omega

/-- C10 witness: the theorem applied at `b = -3` with one real page. -/
theorem claim_C10_witness :
    (-3 : Int) < 0 ∧
    ((blanksOf (-3) : List (Option ℕ)) = [] ∧
      (∀ (i : ℕ) (p : Int × Option ℕ),
        (pageInfo [5] (-3))[i]? = some p → p.1 = (i : Int) + 1 - (-3)) ∧
      (∀ a, ([5] : List ℕ).head? = some a →
        (pageInfo [5] (-3))[0]? = some (1 - (-3), some a) ∧ 1 < 1 - (-3))) :=
  ⟨by decide, claim_C10_negative_blanks [5] (-3) (by decide)⟩

/-! ### C5: padding to a multiple of four -/

/-- C5: for every image list and blank count `b ≥ 0`, the padded slot list has
length divisible by 4, and the appended trailing blanks number
`(4 - len % 4) % 4` where `len` counts the leading blanks plus the images. -/
theorem claim_C5_padding {α : Type} (sortedPaths : List α) (b : Int)
    (hb : 0 ≤ b) :
    (paddedImgPaths sortedPaths b).length % 4 = 0 ∧
    paddedImgPaths sortedPaths b =
      imgSlots sortedPaths b ++
        List.replicate ((4 - (imgSlots sortedPaths b).length % 4) % 4) none := by
  constructor
  · rw [paddedImgPaths, List.length_append, List.length_replicate]
    omega
  · rfl

/-- C5 witness: the theorem applied to three images and one leading blank. -/
theorem claim_C5_witness :
    (0 : Int) ≤ 1 ∧
    ((paddedImgPaths [10, 20, 30] 1).length % 4 = 0 ∧
      paddedImgPaths [10, 20, 30] 1 =
        imgSlots [10, 20, 30] 1 ++
          List.replicate ((4 - (imgSlots [10, 20, 30] 1).length % 4) % 4) none) :=
  ⟨by decide, claim_C5_padding [10, 20, 30] 1 (by decide)⟩

/-! ### C6, C7: layout geometry -/

lemma placement_wide (iw ih : ℚ) (rs : Bool)
    (h : iw / ih > (pageWidth / 2 - imageMargin - imageMargin) /
      (pageHeight - imageMargin - imageMargin)) :
    placement iw ih rs =
      { x := (if rs then pageWidth / 2 else 0) + imageMargin,
        y := imageMargin + ((pageHeight - imageMargin - imageMargin) -
          (pageHeight - imageMargin - imageMargin) *
            (((pageWidth / 2 - imageMargin - imageMargin) /
              (pageHeight - imageMargin - imageMargin)) / (iw / ih))) / 2,
        w := pageWidth / 2 - imageMargin - imageMargin,
        h := (pageHeight - imageMargin - imageMargin) *
          (((pageWidth / 2 - imageMargin - imageMargin) /
            (pageHeight - imageMargin - imageMargin)) / (iw / ih)) } := by
  simp only [placement]
  rw [if_pos h]

lemma placement_tall (iw ih : ℚ) (rs : Bool)
    (h : ¬ iw / ih > (pageWidth / 2 - imageMargin - imageMargin) /
      (pageHeight - imageMargin - imageMargin)) :
    placement iw ih rs =
      { x := (if rs then pageWidth / 2 else 0) + imageMargin +
          ((pageWidth / 2 - imageMargin - imageMargin) -
            (pageWidth / 2 - imageMargin - imageMargin) *
              ((iw / ih) / ((pageWidth / 2 - imageMargin - imageMargin) /
                (pageHeight - imageMargin - imageMargin)))) / 2,
        y := imageMargin,
        w := (pageWidth / 2 - imageMargin - imageMargin) *
          ((iw / ih) / ((pageWidth / 2 - imageMargin - imageMargin) /
            (pageHeight - imageMargin - imageMargin))),
        h := pageHeight - imageMargin - imageMargin } := by
  simp only [placement]
  rw [if_neg h]

lemma wide_facts (W H r : ℚ) (hW : 0 < W) (hH : 0 < H) (hr : 0 < r)
    (h1 : W / H < r) :
    W / (H * ((W / H) / r)) = r ∧ 0 < H * ((W / H) / r) ∧
      H * ((W / H) / r) ≤ H := by
  have hq : (W / H) / r < 1 := by
    rw [div_lt_one hr]
    exact h1
  have hpos : 0 < H * ((W / H) / r) := by positivity
  refine ⟨?_, hpos, ?_⟩
  · field_simp
    ring
  · nlinarith [hq, hH]

lemma tall_facts (W H r : ℚ) (hW : 0 < W) (hH : 0 < H) (hr : 0 < r)
    (h1 : r ≤ W / H) :
    (W * (r / (W / H))) / H = r ∧ 0 < W * (r / (W / H)) ∧
      W * (r / (W / H)) ≤ W := by
  have hq : r / (W / H) ≤ 1 := by
    rw [div_le_one (by positivity)]
    exact h1
  have hpos : 0 < W * (r / (W / H)) := by positivity
  refine ⟨?_, hpos, ?_⟩
  · field_simp
  · nlinarith [hq, hW]

/-- C6: for a positive-dimension image, the computed placement preserves the
aspect ratio, lies inside the margin-reduced half-sheet region, and fixes the
drawable width (centering vertically) when the image is proportionally wider
than the drawable region, else fixes the drawable height (centering
horizontally). -/
theorem claim_C6_placement_geometry (iw ih : ℚ) (rs : Bool)
    (hw : 0 < iw) (hh : 0 < ih) :
    (placement iw ih rs).w / (placement iw ih rs).h = iw / ih ∧
    0 < (placement iw ih rs).w ∧ 0 < (placement iw ih rs).h ∧
    (if rs then pageWidth / 2 else 0) + imageMargin ≤ (placement iw ih rs).x ∧
    (placement iw ih rs).x + (placement iw ih rs).w ≤
      (if rs then pageWidth / 2 else 0) + imageMargin +
        (pageWidth / 2 - imageMargin - imageMargin) ∧
    imageMargin ≤ (placement iw ih rs).y ∧
    (placement iw ih rs).y + (placement iw ih rs).h ≤
      imageMargin + (pageHeight - imageMargin - imageMargin) ∧
    (iw / ih > (pageWidth / 2 - imageMargin - imageMargin) /
        (pageHeight - imageMargin - imageMargin) →
      (placement iw ih rs).w = pageWidth / 2 - imageMargin - imageMargin ∧
      (placement iw ih rs).y = imageMargin +
        ((pageHeight - imageMargin - imageMargin) - (placement iw ih rs).h) / 2) ∧
    (¬ iw / ih > (pageWidth / 2 - imageMargin - imageMargin) /
        (pageHeight - imageMargin - imageMargin) →
      (placement iw ih rs).h = pageHeight - imageMargin - imageMargin ∧
      (placement iw ih rs).x = (if rs then pageWidth / 2 else 0) + imageMargin +
        ((pageWidth / 2 - imageMargin - imageMargin) -
          (placement iw ih rs).w) / 2) := by
  have hW : (0 : ℚ) < pageWidth / 2 - imageMargin - imageMargin := by
    norm_num [pageWidth, imageMargin]
  have hH : (0 : ℚ) < pageHeight - imageMargin - imageMargin := by
    norm_num [pageHeight, imageMargin]
  have hr : 0 < iw / ih := div_pos hw hh
  by_cases h1 : iw / ih > (pageWidth / 2 - imageMargin - imageMargin) /
      (pageHeight - imageMargin - imageMargin)
  · obtain ⟨ha, hb, hc⟩ := wide_facts _ _ _ hW hH hr h1
    rw [placement_wide iw ih rs h1]
    dsimp only
    refine ⟨ha, hW, hb, le_refl _, le_refl _, by linarith, by linarith,
      fun h2 => ⟨rfl, rfl⟩, fun h2 => absurd h1 h2⟩
  · have h1b : iw / ih ≤ (pageWidth / 2 - imageMargin - imageMargin) /
        (pageHeight - imageMargin - imageMargin) := not_lt.mp h1
    obtain ⟨ha, hb, hc⟩ := tall_facts _ _ _ hW hH hr h1b
    rw [placement_tall iw ih rs h1]
    dsimp only
    refine ⟨ha, hb, hH, by linarith, by linarith, le_refl _, le_refl _,
      fun h2 => absurd h2 h1, fun h2 => ⟨rfl, rfl⟩⟩

/-- C6 witness: the theorem applied to a 3 by 2 image on the right half-sheet. -/
theorem claim_C6_witness :
    (0 : ℚ) < 3 ∧ (0 : ℚ) < 2 ∧
    ((placement 3 2 true).w / (placement 3 2 true).h = 3 / 2 ∧
      0 < (placement 3 2 true).w ∧ 0 < (placement 3 2 true).h ∧
      (if true then pageWidth / 2 else 0) + imageMargin ≤ (placement 3 2 true).x ∧
      (placement 3 2 true).x + (placement 3 2 true).w ≤
        (if true then pageWidth / 2 else 0) + imageMargin +
          (pageWidth / 2 - imageMargin - imageMargin) ∧
      imageMargin ≤ (placement 3 2 true).y ∧
      (placement 3 2 true).y + (placement 3 2 true).h ≤
        imageMargin + (pageHeight - imageMargin - imageMargin) ∧
      ((3 : ℚ) / 2 > (pageWidth / 2 - imageMargin - imageMargin) /
          (pageHeight - imageMargin - imageMargin) →
        (placement 3 2 true).w = pageWidth / 2 - imageMargin - imageMargin ∧
        (placement 3 2 true).y = imageMargin +
          ((pageHeight - imageMargin - imageMargin) - (placement 3 2 true).h) / 2) ∧
      (¬ (3 : ℚ) / 2 > (pageWidth / 2 - imageMargin - imageMargin) /
          (pageHeight - imageMargin - imageMargin) →
        (placement 3 2 true).h = pageHeight - imageMargin - imageMargin ∧
        (placement 3 2 true).x = (if true then pageWidth / 2 else 0) + imageMargin +
          ((pageWidth / 2 - imageMargin - imageMargin) -
            (placement 3 2 true).w) / 2)) :=
  ⟨by norm_num, by norm_num, claim_C6_placement_geometry 3 2 true (by norm_num) (by norm_num)⟩

/-- C7 counterexample: the claim requires failure with an `InvalidGeometry`
error for any non-positive image dimension, but for width `-1` (height 1) the
code raises nothing and produces a placement, and for height 0 it fails with
`ZeroDivisionError`, a different error kind (no `InvalidGeometry` exists in the
code). -/
theorem claim_C7_counterexample :
    (placeChecked (-1) 1 true).toOption.isSome = true ∧
    placeChecked 100 0 true = Except.error PyError.zeroDivisionError := by
  constructor
  · rfl
  · rfl

/-- C7 amended: the placement path fails exactly for a zero image height, and
then with the Python `ZeroDivisionError` (from `iw / ih`) rather than a distinct
`InvalidGeometry` kind; every nonzero height (including non-positive widths)
yields a placement, and the fixed page constants never invert the drawable
rectangle. -/
theorem claim_C7_zero_height_division (iw ih : ℚ) (rs : Bool) :
    (ih = 0 → placeChecked iw ih rs = Except.error PyError.zeroDivisionError) ∧
    (ih ≠ 0 → placeChecked iw ih rs = Except.ok (placement iw ih rs)) ∧
    0 < pageWidth / 2 - imageMargin - imageMargin ∧
    0 < pageHeight - imageMargin - imageMargin := by
  refine ⟨?_, ?_, by norm_num [pageWidth, imageMargin], by norm_num [pageHeight, imageMargin]⟩
  · intro h
    rw [placeChecked, if_pos h]
  · intro h
    rw [placeChecked, if_neg h]

/-- C7 witness: both failure and success branches of the amended claim at
concrete inputs. -/
theorem claim_C7_witness :
    placeChecked 5 0 true = Except.error PyError.zeroDivisionError ∧
    placeChecked 5 2 false = Except.ok (placement 5 2 false) :=
  ⟨(claim_C7_zero_height_division 5 0 true).1 rfl,
    (claim_C7_zero_height_division 5 2 false).2.1 (by norm_num)⟩

/-! ### C8: extension dispatch -/

/-- C8: decoding fails (with `ValueError`, the `UnsupportedFormat` case) iff the
suffix is none of `.jpg`, `.jpeg`, `.png`; `.jpg`/`.jpeg` are routed to the
JPEG parser and `.png` to the PNG parser. -/
theorem claim_C8_extension_dispatch (suffix : String) :
    (parseImageInfo suffix =
        Except.error (PyError.valueError "invalid image extension") ↔
      suffix ≠ ".jpg" ∧ suffix ≠ ".jpeg" ∧ suffix ≠ ".png") ∧
    (suffix = ".jpg" ∨ suffix = ".jpeg" →
      parseImageInfo suffix = Except.ok ImgKind.jpeg) ∧
    (suffix = ".png" → parseImageInfo suffix = Except.ok ImgKind.png) := by
  rw [parseImageInfo]
  split_ifs with h1 h2
  · refine ⟨⟨fun h => by simp at h, fun h => ?_⟩, fun _ => rfl, fun h3 => ?_⟩
    · rcases h1 with h1 | h1
      · exact absurd h1 h.1
      · exact absurd h1 h.2.1
    · rcases h1 with h1 | h1 <;> simp [h1] at h3
  · refine ⟨⟨fun h => by simp at h, fun h => absurd h2 h.2.2⟩,
      fun h3 => absurd h3 h1, fun _ => rfl⟩
  · refine ⟨⟨fun _ => ⟨?_, ?_, h2⟩, fun _ => rfl⟩,
      fun h3 => absurd h3 h1, fun h3 => absurd h3 h2⟩
    · intro hc
      exact h1 (Or.inl hc)
    · intro hc
      exact h1 (Or.inr hc)

/-- C8 witness: the dispatch at the three accepted suffixes and one rejected
suffix. -/
theorem claim_C8_witness :
    parseImageInfo ".jpg" = Except.ok ImgKind.jpeg ∧
    parseImageInfo ".jpeg" = Except.ok ImgKind.jpeg ∧
    parseImageInfo ".png" = Except.ok ImgKind.png ∧
    parseImageInfo ".gif" =
      Except.error (PyError.valueError "invalid image extension") :=
  ⟨(claim_C8_extension_dispatch ".jpg").2.1 (Or.inl rfl),
    (claim_C8_extension_dispatch ".jpeg").2.1 (Or.inr rfl),
    (claim_C8_extension_dispatch ".png").2.2 rfl,
    (claim_C8_extension_dispatch ".gif").1.mpr (by decide)⟩

/-! ### C9: the image registry -/

lemma find?_append (l₁ l₂ : List γ) (p : γ → Bool) :
    (l₁ ++ l₂).find? p = ((l₁.find? p).orElse fun _ => l₂.find? p) := by
  induction l₁ with
  | nil => simp
  | cons a t ih => by_cases hpa : p a <;> simp [List.find?_cons, hpa, ih]

lemma find?_overwrite (d : List (String × Nat)) (k : String) (v : Nat) :
    (d.map fun p => if p.1 == k then (k, v) else p).find? (fun p => p.1 == k) =
      if d.any (fun p => p.1 == k) then some (k, v) else none := by
  induction d with
  | nil => rfl
  | cons p t ih =>
    by_cases hpk : (p.1 == k) = true
    · rw [List.map_cons, if_pos hpk, List.find?_cons_of_pos _ (by simp),
        List.any_cons, hpk]
      simp
    · have hpk' : (p.1 == k) = false := by simpa using hpk
      rw [List.map_cons, if_neg hpk, List.find?_cons_of_neg _ (by simp [hpk']),
        ih, List.any_cons, hpk', Bool.false_or]

lemma find?_keep (d : List (String × Nat)) (k x : String) (v : Nat)
    (hne : x ≠ k) :
    (d.map fun p => if p.1 == k then (k, v) else p).find? (fun p => p.1 == x) =
      d.find? (fun p => p.1 == x) := by
  induction d with
  | nil => rfl
  | cons p t ih =>
    by_cases hpk : (p.1 == k) = true
    · have hp1 : p.1 = k := by simpa using hpk
      have hx1 : (k == x) = false := by
        simp
        exact fun hc => hne hc.symm
      rw [List.map_cons, if_pos hpk, List.find?_cons_of_neg _ (by simp [hx1]),
        List.find?_cons_of_neg _ (by simp [hp1]; exact fun hc => hne hc.symm),
        ih]
    · rw [List.map_cons, if_neg hpk]
      by_cases hpx : (p.1 == x) = true
      · rw [List.find?_cons_of_pos _ (by exact hpx),
          List.find?_cons_of_pos _ (by exact hpx)]
      · rw [List.find?_cons_of_neg _ (by exact hpx),
          List.find?_cons_of_neg _ (by exact hpx), ih]

lemma dictGet?_dictSet_self (d : List (String × Nat)) (k : String) (v : Nat) :
    dictGet? (dictSet d k v) k = some v := by
  rw [dictSet, dictGet?]
  by_cases hany : d.any (fun p => p.1 == k)
  · rw [if_pos hany, find?_overwrite, if_pos hany]
    rfl
  · rw [if_neg hany, find?_append]
    have hnone : d.find? (fun p => p.1 == k) = none := by
      rw [List.find?_eq_none]
      intro p hp hc
      exact hany (List.any_eq_true.mpr ⟨p, hp, hc⟩)
    rw [hnone]
    simp

lemma dictGet?_dictSet_ne (d : List (String × Nat)) (k x : String) (v : Nat)
    (hne : x ≠ k) :
    dictGet? (dictSet d k v) x = dictGet? d x := by
  rw [dictSet, dictGet?, dictGet?]
  by_cases hany : d.any (fun p => p.1 == k)
  · rw [if_pos hany, find?_keep d k x v hne]
  · rw [if_neg hany, find?_append]
    cases hf : d.find? (fun p => p.1 == x) with
    | some q => simp
    | none =>
      have hx1 : (k == x) = false := by
        simp
        exact fun hc => hne hc.symm
      simp [List.find?_cons, hx1]

lemma dictSet_keys (d : List (String × Nat)) (k : String) (v : Nat) :
    (dictSet d k v).map Prod.fst =
      if k ∈ d.map Prod.fst then d.map Prod.fst else d.map Prod.fst ++ [k] := by
  rw [dictSet]
  by_cases h : k ∈ d.map Prod.fst
  · have hany : d.any (fun p => p.1 == k) = true := by
      rw [List.any_eq_true]
      simp only [List.mem_map] at h
      obtain ⟨p, hp, hpk⟩ := h
      exact ⟨p, hp, by simp [hpk]⟩
    rw [if_pos hany, if_pos h, List.map_map]
    apply List.map_congr_left
    intro p hp
    by_cases hpk : (p.1 == k) = true
    · simp only [Function.comp_apply, if_pos hpk]
      have : p.1 = k := by simpa using hpk
      simp [this]
    · simp only [Function.comp_apply, if_neg hpk]
  · have hany : d.any (fun p => p.1 == k) = false := by
      rw [Bool.eq_false_iff]
      intro hc
      obtain ⟨p, hp, hpk⟩ := List.any_eq_true.mp hc
      exact h (List.mem_map.mpr ⟨p, hp, by simpa using hpk⟩)
    rw [if_neg (by simp [hany]), if_neg h, List.map_append]
    rfl

lemma writeImages_fst (n : String) (rest : List String) (d : List (String × Nat)) :
    (writeImages (n :: rest) d).1 =
      (writeImages rest (dictSet d n (d.length + 1))).1 := rfl

lemma writeImages_snd (n : String) (rest : List String) (d : List (String × Nat)) :
    (writeImages (n :: rest) d).2 =
      (n, d.length + 1) :: (writeImages rest (dictSet d n (d.length + 1))).2 := rfl

lemma writeImages_registry_keys (names : List String) (d : List (String × Nat))
    (hd : (d.map Prod.fst).Nodup) :
    ((writeImages names d).1.map Prod.fst).Nodup ∧
    ∀ x, x ∈ (writeImages names d).1.map Prod.fst ↔
      x ∈ d.map Prod.fst ∨ x ∈ names := by
  induction names generalizing d with
  | nil =>
    refine ⟨by simpa [writeImages] using hd, fun x => by simp [writeImages]⟩
  | cons n rest ih =>
    rw [writeImages_fst]
    have hkeys := dictSet_keys d n (d.length + 1)
    have hnd : ((dictSet d n (d.length + 1)).map Prod.fst).Nodup := by
      rw [hkeys]
      split_ifs with hmem
      · exact hd
      · refine List.Nodup.append hd (by simp) ?_
        intro x hx hx1
        simp only [List.mem_singleton] at hx1
        subst hx1
        exact hmem hx
    obtain ⟨h1, h2⟩ := ih (dictSet d n (d.length + 1)) hnd
    refine ⟨h1, fun x => ?_⟩
    rw [h2 x, hkeys]
    split_ifs with hmem
    · constructor
      · rintro (hx | hx)
        · exact Or.inl hx
        · exact Or.inr (List.mem_cons_of_mem n hx)
      · rintro (hx | hx)
        · exact Or.inl hx
        · rcases List.mem_cons.mp hx with hx | hx
          · subst hx
            exact Or.inl hmem
          · exact Or.inr hx
    · constructor
      · rintro (hx | hx)
        · rcases List.mem_append.mp hx with hx | hx
          · exact Or.inl hx
          · simp only [List.mem_singleton] at hx
            refine Or.inr ?_
            rw [hx]
            exact List.mem_cons_self _ _
        · exact Or.inr (List.mem_cons_of_mem n hx)
      · rintro (hx | hx)
        · exact Or.inl (List.mem_append.mpr (Or.inl hx))
        · rcases List.mem_cons.mp hx with hx | hx
          · subst hx
            exact Or.inl (List.mem_append.mpr (Or.inr (by simp)))
          · exact Or.inr hx

lemma writeImages_preserve (names : List String) (d : List (String × Nat))
    (x : String) (hx : x ∉ names) :
    dictGet? (writeImages names d).1 x = dictGet? d x := by
  induction names generalizing d with
  | nil => rfl
  | cons n rest ih =>
    rw [writeImages_fst, ih _ fun hc => hx (List.mem_cons_of_mem n hc),
      dictGet?_dictSet_ne d n x _ fun he => hx (by simp [he])]

lemma writeImages_refs (names : List String) (d : List (String × Nat))
    (hnd : names.Nodup) (hdisj : ∀ n ∈ names, dictGet? d n = none) :
    ∀ r ∈ (writeImages names d).2,
      dictGet? (writeImages names d).1 r.1 = some r.2 := by
  induction names generalizing d with
  | nil =>
    intro r hr
    simp [writeImages] at hr
  | cons n rest ih =>
    intro r hr
    rw [writeImages_snd] at hr
    rw [writeImages_fst]
    obtain ⟨hn, hrest⟩ := List.nodup_cons.mp hnd
    rcases List.mem_cons.mp hr with hr | hr
    · subst hr
      rw [writeImages_preserve rest _ n hn]
      exact dictGet?_dictSet_self d n (d.length + 1)
    · refine ih (dictSet d n (d.length + 1)) hrest ?_ r hr
      intro m hm
      rw [dictGet?_dictSet_ne d n m _ fun he => hn (he ▸ hm)]
      exact hdisj m (List.mem_cons_of_mem n hm)

lemma writeImages_keys_order (names : List String) (d : List (String × Nat))
    (hnd : names.Nodup) (hdisj : ∀ n ∈ names, n ∉ d.map Prod.fst) :
    (writeImages names d).1.map Prod.fst = d.map Prod.fst ++ names := by
  induction names generalizing d with
  | nil => simp [writeImages]
  | cons n rest ih =>
    rw [writeImages_fst]
    obtain ⟨hn, hrest⟩ := List.nodup_cons.mp hnd
    have hset := dictSet_keys d n (d.length + 1)
    rw [if_neg (hdisj n (List.mem_cons_self n rest))] at hset
    rw [ih _ hrest ?_, hset, List.append_assoc]
    · rfl
    · intro m hm
      rw [hset]
      intro hc
      rcases List.mem_append.mp hc with hc | hc
      · exact hdisj m (List.mem_cons_of_mem n hm) hc
      · simp only [List.mem_singleton] at hc
        exact hn (hc ▸ hm)

lemma writeImages_refs_length (names : List String) (d : List (String × Nat)) :
    (writeImages names d).2.length = names.length := by
  induction names generalizing d with
  | nil => rfl
  | cons n rest ih =>
    rw [writeImages_snd, List.length_cons, ih]
    rfl

/-- C9 counterexample: registering the same path twice keeps a single registry
entry but reassigns its index, so the first emitted content-stream reference
`("a", 1)` names an index the final registry no longer maps to that image
(the registry maps "a" to 2). -/
theorem claim_C9_counterexample :
    (writeImages ["a", "a"] []).2 = [("a", 1), ("a", 2)] ∧
    dictGet? (writeImages ["a", "a"] []).1 "a" = some 2 ∧
    dictGet? (writeImages ["a", "a"] []).1 "a" ≠ some 1 := by
  refine ⟨rfl, rfl, by decide⟩

/-- C9 amended: the registry is keyed by source path, holding exactly one entry
per distinct placed path; when the placed paths are pairwise distinct (as in
one `build_pdf` document, whose slot paths are distinct files), every emitted
content-stream reference names the index the final registry maps to that path.
With repeated paths the entry is still unique but earlier references go stale. -/
theorem claim_C9_registry_dedup (names : List String) (h : names.Nodup) :
    (writeImages names []).1.map Prod.fst = names ∧
    (∀ r ∈ (writeImages names []).2,
      dictGet? (writeImages names []).1 r.1 = some r.2) ∧
    (writeImages names []).2.length = names.length ∧
    (∀ ns : List String, ((writeImages ns []).1.map Prod.fst).Nodup ∧
      ∀ x, x ∈ (writeImages ns []).1.map Prod.fst ↔ x ∈ ns) := by
  refine ⟨?_, ?_, writeImages_refs_length names [], fun ns => ?_⟩
  · have := writeImages_keys_order names [] h (by simp)
    simpa using this
  · exact writeImages_refs names [] h (by simp [dictGet?])
  · obtain ⟨h1, h2⟩ := writeImages_registry_keys ns [] (by simp)
    refine ⟨h1, fun x => ?_⟩
    rw [h2 x]
    simp

/-- C9 witness: two distinct paths; both emitted references match the final
registry. -/
theorem claim_C9_witness :
    (["a", "b"] : List String).Nodup ∧
    ((writeImages ["a", "b"] []).1.map Prod.fst = ["a", "b"] ∧
      (∀ r ∈ (writeImages ["a", "b"] []).2,
        dictGet? (writeImages ["a", "b"] []).1 r.1 = some r.2) ∧
      (writeImages ["a", "b"] []).2.length = (["a", "b"] : List String).length ∧
      (∀ ns : List String, ((writeImages ns []).1.map Prod.fst).Nodup ∧
        ∀ x, x ∈ (writeImages ns []).1.map Prod.fst ↔ x ∈ ns)) :=
  ⟨by decide, claim_C9_registry_dedup ["a", "b"] (by decide)⟩

end Mangautils
